import Mathlib

/-!
# Verification of the MLST-INGA protocol core

Shallow embedding of the C sources of the MLST-INGA repository
(`rsunicast/rsunicast_history.h`, `rsunicast/rsunicast.h`,
`public_variable_neighborhood/public_variable_neighborhood.h`,
`mlst_network.h`, `mlst_network-ea2.h`) as executable Lean definitions,
together with theorems settling the behavioural claims about the code.

Machine integers are modelled as `Nat`.  Wrap-arounds that the C code
performs explicitly (the per-sender sequence number `rsu_seqno`) are
translated literally.  Implicit `uint8_t`/`uint16_t` overflow of the
*counters* (history size, neighborhood size, children count) is not
modelled: those counters track containers whose physical size in the
target system (a one-hop radio neighborhood, a 30-entry cache, a short
send queue) is far below 2^8 resp. 2^16.  Where the C code would
dereference a null pointer, the embedding records this in an explicit
`crash` marker instead of producing a value.
-/

/-! ## RSU history (`rsunicast/rsunicast_history.h`)

The history is the linked list `rsu_history_list` paired with the
counter `rsu_history_size`.  An entry is a pair `(id, seqno)`.
-/

/-- `MAX_HISTORY_SIZE` from `rsunicast_history.h`. -/
def MAX_HISTORY_SIZE : Nat := 30

/-- The global pair (`rsu_history_list`, `rsu_history_size`). -/
abbrev RsuHistory : Type := List (Nat × Nat) × Nat

/-- `rsu_check_history`: returns 1 iff an entry with this id and seqno is
present, else 0 (the C function returns `uint8_t`). -/
def rsu_check_history (hist : List (Nat × Nat)) (src seqno : Nat) : Nat :=
  match hist with
  | [] => 0
  | (i, s) :: rest => if i = src ∧ s = seqno then 1 else rsu_check_history rest src seqno

/-- The initial `while` loop of `rsu_add_history`: pop entries with the
given id from the head of the list, decrementing the size counter for
each popped entry. -/
def rsu_add_head_remove (src : Nat) : List (Nat × Nat) → Nat → List (Nat × Nat) × Nat
  | [], sz => ([], sz)
  | (i, s) :: rest, sz =>
    if i = src then rsu_add_head_remove src rest (sz - 1) else ((i, s) :: rest, sz)

/-- The `for` loop of `rsu_add_history`, entered with `tmp` at the head of a
non-empty list.  The first argument is the node `tmp` points at, the second
the rest of the list after it.  Mirrors the C loop exactly: when
`tmp->next` is the end, the new entry is appended (returning `true` for the
`rsu_history_size++` that accompanies it); when `tmp->next` carries the same
id it is spliced out — without any size decrement, exactly as in the C —
and the loop continues at the node *after* the removed one, so when the
removed node was the last one the loop exits without inserting anything. -/
def rsu_add_loop (src seqno : Nat) : Nat × Nat → List (Nat × Nat) → List (Nat × Nat) × Bool
  | v, [] => ([v, (src, seqno)], true)
  | v, w :: ws =>
    if w.1 = src then
      match ws with
      | [] => ([v], false)
      | u :: us =>
        let r := rsu_add_loop src seqno u us
        (v :: r.1, r.2)
    else
      let r := rsu_add_loop src seqno w ws
      (v :: r.1, r.2)

/-- The final `while (rsu_history_size > MAX_HISTORY_SIZE)` loop of
`rsu_add_history`: drop entries from the head while the counter exceeds 30.
(When the counter exceeds 30 but the list is already empty the C code would
dereference null; the loop below stops instead.) -/
def rsu_trim : List (Nat × Nat) → Nat → List (Nat × Nat) × Nat
  | [], sz => ([], sz)
  | x :: xs, sz => if MAX_HISTORY_SIZE < sz then rsu_trim xs (sz - 1) else (x :: xs, sz)

/-- `rsu_add_history` from `rsunicast_history.h`, operating on the pair
(`rsu_history_list`, `rsu_history_size`). -/
def rsu_add_history (hist : RsuHistory) (src seqno : Nat) : RsuHistory :=
  let r1 := rsu_add_head_remove src hist.1 hist.2
  match r1.1 with
  | [] => rsu_trim [(src, seqno)] (r1.2 + 1)
  | v :: rest =>
    let r2 := rsu_add_loop src seqno v rest
    rsu_trim r2.1 (if r2.2 then r1.2 + 1 else r1.2)

/-! ## RSU transport (`rsunicast/rsunicast.h`) -/

/-- `MAX_TRIES` from `rsunicast.h`. -/
def MAX_TRIES : Nat := 5

/-- `struct RSUnicastQueueElement`: the envelope bytes (leading seqno byte
followed by the payload) and the try counter. -/
structure RSUnicastQueueElement where
  msg : List Nat
  tries : Nat
  deriving DecidableEq, Repr

/-- The mutable globals of `rsunicast.h` that the claims depend on.
`crashed` marks states in which the C code dereferenced a null
`rsu_queue`. -/
structure RsuState where
  rsu_queue : List RSUnicastQueueElement
  rsu_seqno : Nat
  rsu_is_online : Bool
  rsu_is_allowed_to_sleep : Bool
  rsu_parent : Nat
  rsu_messages_in_queue : Nat
  cbSet : Bool
  crashed : Bool
  deriving Repr

/-- Externally observable actions of the RSU code. -/
inductive RsuEvent where
  | transmit (dest : Nat) (envelope : List Nat)
  | cbFail (parent tries : Nat)
  | chanOpen
  | chanClose
  deriving DecidableEq, Repr

/-- The single multiplexed `ctimer` of the RSU: which callback it is armed
to fire next, if any. -/
inductive RsuTimerState where
  | armedSend
  | armedTimeout
  | idle
  deriving DecidableEq, Repr

/-- `rsunicast_send`: wake up if offline, allocate a queue element whose
envelope is the current seqno followed by the payload, step the seqno with
its explicit wrap at 0xff, append to the queue, and — only when the queue
was empty — arm the send timer.  Returns the new state, the emitted
events, and the timer update (if any). -/
def rsunicast_send (s : RsuState) (msg : List Nat) : RsuState × List RsuEvent × Option RsuTimerState :=
  let w := if s.rsu_is_online then (s, ([] : List RsuEvent))
           else ({ s with rsu_is_online := true }, [RsuEvent.chanOpen])
  let s1 := w.1
  let queue_element : RSUnicastQueueElement := ⟨s1.rsu_seqno :: msg, 0⟩
  let s2 := { s1 with rsu_seqno := if s1.rsu_seqno = 0xff then 0 else s1.rsu_seqno + 1 }
  if s2.rsu_queue.isEmpty then
    ({ s2 with rsu_queue := [queue_element],
               rsu_messages_in_queue := s2.rsu_messages_in_queue + 1 },
     w.2, some RsuTimerState.armedSend)
  else
    ({ s2 with rsu_queue := s2.rsu_queue ++ [queue_element],
               rsu_messages_in_queue := s2.rsu_messages_in_queue + 1 },
     w.2, none)

/-- `rsu_send_next_message`: if a parent is configured, unicast the head
envelope to it and increment its try counter; in every case (re-)arm the
ACK timeout timer.  A null `rsu_queue` with a configured parent would be a
null dereference in C and is recorded in `crashed`. -/
def rsu_send_next_message (s : RsuState) : RsuState × List RsuEvent × RsuTimerState :=
  let r :=
    if s.rsu_parent = 0 then (s, ([] : List RsuEvent))
    else
      match s.rsu_queue with
      | [] => ({ s with crashed := true }, [])
      | e :: rest =>
        ({ s with rsu_queue := { e with tries := e.tries + 1 } :: rest },
         [RsuEvent.transmit s.rsu_parent e.msg])
  (r.1, r.2, RsuTimerState.armedTimeout)

/-- `rsu_on_ack_timeout`: fire the failure callback (if set) with the head
try counter; if the head exceeded `MAX_TRIES` discard it and, when the
queue drained and sleeping is allowed, close the channels; finally re-arm
the send timer iff the queue is non-empty. -/
def rsu_on_ack_timeout (s : RsuState) : RsuState × List RsuEvent × RsuTimerState :=
  match s.rsu_queue with
  | [] => ({ s with crashed := true }, [], RsuTimerState.idle)
  | e :: rest =>
    let ev1 : List RsuEvent := if s.cbSet then [RsuEvent.cbFail s.rsu_parent e.tries] else []
    if MAX_TRIES < e.tries then
      let s1 := { s with rsu_queue := rest }
      let w := if rest.isEmpty && s1.rsu_is_allowed_to_sleep then
                 ({ s1 with rsu_is_online := false }, [RsuEvent.chanClose])
               else (s1, ([] : List RsuEvent))
      if w.1.rsu_queue.isEmpty then (w.1, ev1 ++ w.2, RsuTimerState.idle)
      else (w.1, ev1 ++ w.2, RsuTimerState.armedSend)
    else
      (s, ev1, RsuTimerState.armedSend)

/-- `rsu_on_recieve_ack`: pop and free the head, stop the timer, arm the
next send if messages remain, close the channels when idle and allowed to
sleep.  Unsolicited ACKs are ignored. -/
def rsu_on_recieve_ack (s : RsuState) : RsuState × List RsuEvent × RsuTimerState :=
  match s.rsu_queue with
  | [] => (s, [], RsuTimerState.idle)
  | _ :: rest =>
    let s1 := { s with rsu_queue := rest,
                       rsu_messages_in_queue := s.rsu_messages_in_queue - 1 }
    if rest.isEmpty then
      if s1.rsu_is_allowed_to_sleep then
        ({ s1 with rsu_is_online := false }, [RsuEvent.chanClose], RsuTimerState.idle)
      else (s1, [], RsuTimerState.idle)
    else (s1, [], RsuTimerState.armedSend)

/-- Timer-driven execution: fire whichever callback the single `ctimer` is
armed for, for at most `fuel` firings, collecting the emitted events. -/
def rsuRun : Nat → RsuState × RsuTimerState → RsuState × RsuTimerState × List RsuEvent
  | 0, c => (c.1, c.2, [])
  | fuel + 1, (s, t) =>
    match t with
    | RsuTimerState.idle => (s, RsuTimerState.idle, [])
    | RsuTimerState.armedSend =>
      let r := rsu_send_next_message s
      let rr := rsuRun fuel (r.1, r.2.2)
      (rr.1, rr.2.1, r.2.1 ++ rr.2.2)
    | RsuTimerState.armedTimeout =>
      let r := rsu_on_ack_timeout s
      let rr := rsuRun fuel (r.1, r.2.2)
      (rr.1, rr.2.1, r.2.1 ++ rr.2.2)

/-- Recognizer for transmission events. -/
def isTransmit : RsuEvent → Bool
  | RsuEvent.transmit _ _ => true
  | _ => false

/-- Recognizer for failure-callback events. -/
def isCbFail : RsuEvent → Bool
  | RsuEvent.cbFail _ _ => true
  | _ => false

/-! ### RSU data-receive handlers (`rsu_on_new_message`) -/

/-- Result of the ROOT compilation of `rsu_on_new_message`: the (unchanged)
history, the deliveries made to the root's new-message callback — each
tagged with the (source, seqno) of the receive that triggered it — and the
ACK bytes sent (destination, byte). -/
structure RsuRecvRoot where
  hist : RsuHistory
  delivered : List (Nat × Nat × List Nat)
  acks : List (Nat × Nat)
  deriving Repr

/-- `rsu_on_new_message` under `#ifdef ROOT`: always ACK with the literal
byte 'A' (65); if the root callback is set and `rsu_check_history` finds no
entry, deliver the payload.  Note that this path never calls
`rsu_add_history`, so the history it consults is whatever it was before. -/
def rsu_on_new_message_root (cbSet : Bool) (hist : RsuHistory) (src seqno : Nat)
    (payload : List Nat) : RsuRecvRoot :=
  { hist := hist
    delivered :=
      if cbSet then
        if rsu_check_history hist.1 src seqno = 0 then [(src, seqno, payload)] else []
      else []
    acks := [(src, 65)] }

/-- Result of the non-root compilation of `rsu_on_new_message`. -/
structure RsuRecvFwd where
  st : RsuState
  tmr : RsuTimerState
  hist : RsuHistory
  acks : List (Nat × Nat)
  events : List RsuEvent
  deriving Repr

/-- `rsu_on_new_message` in the non-root compilation: always ACK with the
byte 'A' (65); duplicates (per `rsu_check_history`) are then dropped;
otherwise the (source, seqno) is recorded via `rsu_add_history` and the
payload is re-enqueued toward the own parent via `rsunicast_send`. -/
def rsu_on_new_message (st : RsuState) (tmr : RsuTimerState) (hist : RsuHistory)
    (src seqno : Nat) (payload : List Nat) : RsuRecvFwd :=
  if rsu_check_history hist.1 src seqno ≠ 0 then
    { st := st, tmr := tmr, hist := hist, acks := [(src, 65)], events := [] }
  else
    let hist1 := rsu_add_history hist src seqno
    let r := rsunicast_send st payload
    { st := r.1
      tmr := match r.2.2 with | some t => t | none => tmr
      hist := hist1
      acks := [(src, 65)]
      events := r.2.1 }

/-! ## Public Variable Neighborhood
(`public_variable_neighborhood/public_variable_neighborhood.h`)

A neighbor entry (`struct Nbr`) holds the sender id, the last-known
public variable (`public_var`, null right after `calloc` and before it is
populated — hence an `Option`), and the refresh timestamp.  A `struct PVN`
is modelled with the fields the claims touch; the three callbacks are
modelled by flags saying whether each function pointer is non-null, and
callback invocations are returned as events. -/

namespace Pvn

/-- `struct Nbr` (the link address is not modelled: no claim depends on it). -/
structure Nbr where
  id : Nat
  public_var : Option (List Nat)
  timestamp : Nat
  deriving DecidableEq, Repr

/-- Callback invocations of a PVN, tagged with the affected neighbor id. -/
inductive Event where
  | onNew (id : Nat)
  | onChange (id : Nat)
  | onDelete (id : Nat)
  deriving DecidableEq, Repr

/-- `struct PVN` (fields used by the claims). -/
structure PVN where
  nbrList : List Nbr
  neighborhood_size : Nat
  maximum_age_of_neighbor_information : Nat
  cmp : Option (List Nat → List Nat → Bool)
  onNewSet : Bool
  onChangeSet : Bool
  onDeleteSet : Bool

/-- `pvn_init` on a fresh (zeroed) `struct PVN`: empty neighbor list,
zero size counter. -/
def pvn_init (maxAge : Nat) (cmp : Option (List Nat → List Nat → Bool))
    (onNewSet onChangeSet onDeleteSet : Bool) : PVN :=
  { nbrList := []
    neighborhood_size := 0
    maximum_age_of_neighbor_information := maxAge
    cmp := cmp
    onNewSet := onNewSet
    onChangeSet := onChangeSet
    onDeleteSet := onDeleteSet }

/-- The change test of `on_new_neighbor_information`: the configured
comparison function, or byte-wise inequality (`memcmp != 0`) by default. -/
def pvnChanged (cmp : Option (List Nat → List Nat → Bool)) (old newv : List Nat) : Bool :=
  match cmp with
  | none => decide (old ≠ newv)
  | some f => f old newv

/-- Recognizer for `onNew` events. -/
def isNewEvent : Event → Bool
  | Event.onNew _ => true
  | _ => false

/-- The body of `on_new_neighbor_information` once the loop has reached the
entry with the sender's id: refresh the timestamp; when `public_var` is
still null, allocate it, copy the payload and fire `onNew` (if set); when
it exists, fire `onChange` (if set) when the configured comparison reports
a change, then copy the payload over unconditionally. -/
def handle_found (s : PVN) (now : Nat) (payload : List Nat) (n : Nbr) : Nbr × List Event :=
  match n.public_var with
  | none =>
    ({ n with timestamp := now, public_var := some payload },
     if s.onNewSet then [Event.onNew n.id] else [])
  | some old =>
    ({ n with timestamp := now, public_var := some payload },
     if pvnChanged s.cmp old payload && s.onChangeSet then [Event.onChange n.id] else [])

/-- The find-or-append loop of `on_new_neighbor_information`, entered on a
non-empty list: the entry with the sender's id is handled in place; when
the walk reaches the last entry without a match, an empty entry is
appended and — as in the C, where the next loop iteration finds the
fresh entry — handled immediately. -/
def find_update (s : PVN) (id now : Nat) (payload : List Nat) : List Nbr → List Nbr × List Event
  | [] => ([], [])
  | n :: rest =>
    if n.id = id then
      let r := handle_found s now payload n
      (r.1 :: rest, r.2)
    else
      match rest with
      | [] =>
        let r := handle_found s now payload ⟨id, none, 0⟩
        ([n, r.1], r.2)
      | m :: ms =>
        let r := find_update s id now payload (m :: ms)
        (n :: r.1, r.2)

/-- `on_new_neighbor_information` for the PVN owning the channel: create a
zeroed head entry when the list is empty, then run the find-or-append
loop.  The size counter is incremented exactly when `onNew` fires, as in
the C where `neighborhood_size++` sits inside the `onNew != 0` branch. -/
def on_new_neighbor_information (s : PVN) (fromId now : Nat) (payload : List Nat) :
    PVN × List Event :=
  let l0 := match s.nbrList with
            | [] => [(⟨fromId, none, 0⟩ : Nbr)]
            | l => l
  let r := find_update s fromId now payload l0
  ({ s with nbrList := r.1,
            neighborhood_size := s.neighborhood_size + r.2.countP isNewEvent },
   r.2)

/-- First loop of `pvn_remove_old_neighbor_information`: pop outdated
entries from the head until the list is empty or the head is fresh.
Returns the remaining list and the removed entries in removal order. -/
def sweep_head (thr : Nat) : List Nbr → List Nbr × List Nbr
  | [] => ([], [])
  | n :: rest =>
    if n.timestamp < thr then
      let r := sweep_head thr rest
      (r.1, n :: r.2)
    else (n :: rest, [])

/-- Second loop of `pvn_remove_old_neighbor_information`, walking with
`nbr` on a node whose successor is inspected.  Mirrors the C exactly:
after `nbr->nextNbr` is spliced out, the loop increment moves `nbr` to the
node *after* the removed one, so that node's own successor is the next one
inspected — the removed entry's replacement successor is never itself
checked, and consecutive outdated entries survive the pass. -/
def sweep_tail (thr : Nat) : Nbr → List Nbr → List Nbr × List Nbr
  | v, [] => ([v], [])
  | v, w :: ws =>
    if w.timestamp < thr then
      match ws with
      | [] => ([v], [w])
      | u :: us =>
        let r := sweep_tail thr u us
        (v :: r.1, w :: r.2)
    else
      let r := sweep_tail thr w ws
      (v :: r.1, r.2)

/-- `pvn_remove_old_neighbor_information`: compute the oldest allowed
timestamp with the explicit clamp at 0 shortly after boot, run both
removal loops, fire `onDelete` per removed entry when set, and decrement
the size counter per removed entry — only inside the `onDelete != 0`
branch, as in the C. -/
def pvn_remove_old_neighbor_information (s : PVN) (now : Nat) : PVN × List Event :=
  let thr := if now ≤ s.maximum_age_of_neighbor_information then 0
             else now - s.maximum_age_of_neighbor_information
  let r1 := sweep_head thr s.nbrList
  let r2 := match r1.1 with
            | [] => (([] : List Nbr), ([] : List Nbr))
            | v :: rest => sweep_tail thr v rest
  let removed := r1.2 ++ r2.2
  ({ s with nbrList := r2.1,
            neighborhood_size :=
              s.neighborhood_size - (if s.onDeleteSet then removed.length else 0) },
   if s.onDeleteSet then removed.map (fun n => Event.onDelete n.id) else [])

/-- Repeated delivery of the same payload from the same sender, at the
given sequence of arrival times. -/
def pvnDeliverTimes (id : Nat) (payload : List Nat) : PVN → List Nat → PVN × List Event
  | s, [] => (s, [])
  | s, t :: ts =>
    let r := on_new_neighbor_information s id t payload
    let rr := pvnDeliverTimes id payload r.1 ts
    (rr.1, r.2 ++ rr.2)

/-- The externally driven operations on a PVN: an inbound broadcast or an
aging sweep. -/
inductive Op where
  | deliver (id now : Nat) (payload : List Nat)
  | sweep (now : Nat)

/-- Apply one operation (keeping only the state). -/
def applyOp (s : PVN) : Op → PVN
  | Op.deliver id now payload => (on_new_neighbor_information s id now payload).1
  | Op.sweep now => (pvn_remove_old_neighbor_information s now).1

/-- Apply a sequence of operations. -/
def applyOps (s : PVN) (ops : List Op) : PVN :=
  ops.foldl applyOp s

/-- The bookkeeping invariant of a healthy PVN: every entry's variable
buffer is populated and the size counter equals the list length. -/
def SizeInv (s : PVN) : Prop :=
  (∀ n ∈ s.nbrList, n.public_var ≠ none) ∧ s.neighborhood_size = s.nbrList.length

end Pvn

/-! ## Plain MLST recompute (`mlst_network.h`) -/

namespace MlstPlain

/-- `struct mlst_public_variable` of the plain variant. -/
structure PV where
  distance_to_root : Nat
  parent_id : Nat
  children_count : Nat
  deriving DecidableEq, Repr

/-- A neighbor as seen by `mlst_recalculate`: the PVN entry's id together
with its (populated) public variable. -/
structure Nbr where
  id : Nat
  pv : PV
  deriving DecidableEq, Repr

/-- Loop state of the neighbor scan in `mlst_recalculate`.  In the C
source `best_parent` and `best_parent_pv` always point at the same
neighbor entry, so a single `Option Nbr` models both; `crash` records
that the C code read `best_parent_pv->children_count` while that pointer
was still null. -/
structure Acc where
  children_count : Nat
  distance_to_root : Nat
  number_of_potential_parents : Nat
  best_parent : Option Nbr
  stayActive : Bool
  crash : Bool
  deriving DecidableEq, Repr

/-- Initial loop state: `children_count = 0`, `distance_to_root = 0xff`,
no potential parents, null best-parent pointers. -/
def accInit : Acc := ⟨0, 0xff, 0, none, false, false⟩

/-- One iteration of the neighbor loop of the non-root `mlst_recalculate`.
The comparisons `n_pv->distance_to_root + 1 < distance_to_root` operate,
as in C after integer promotion, without any 8-bit wrap: a neighbor with
distance 0xff yields 0x100 and never wins.  A neighbor whose distance + 1
*equals* the current `distance_to_root` while `best_parent_pv` is still
null makes the C code dereference null; `crash` records this. -/
def plainStep (own : Nat) (a : Acc) (n : Nbr) : Acc :=
  if a.crash then a
  else if n.pv.parent_id = 0 then
    { a with stayActive := true, children_count := a.children_count + 1 }
  else if n.pv.parent_id = own then
    { a with children_count := a.children_count + 1 }
  else if n.pv.distance_to_root + 1 < a.distance_to_root then
    { a with distance_to_root := n.pv.distance_to_root + 1,
             number_of_potential_parents := 1,
             best_parent := some n }
  else if n.pv.distance_to_root + 1 = a.distance_to_root then
    match a.best_parent with
    | none => { a with crash := true }
    | some b =>
      if b.pv.children_count < n.pv.children_count then
        { a with number_of_potential_parents := 1, best_parent := some n }
      else if b.pv.children_count = n.pv.children_count then
        let a1 := { a with number_of_potential_parents := a.number_of_potential_parents + 1 }
        if n.id < b.id then { a1 with best_parent := some n } else a1
      else a
  else a

/-- The full neighbor scan. -/
def plainFold (own : Nat) (nbrs : List Nbr) : Acc :=
  nbrs.foldl (plainStep own) accInit

/-- Outcome of one non-root `mlst_recalculate` round: the null
dereference, a committed parent (with the published variable), or the
undefined state (parent cleared, distance sentinel). -/
inductive Result where
  | crash
  | committed (pv : PV) (parent : Nbr)
  | undefined (pv : PV)
  deriving DecidableEq, Repr

/-- The non-root `mlst_recalculate`: scan the neighbors, then either stay
undefined (no candidate, or a tie deferred by the coin flip
`random_rand() < 0.5*RANDOM_RAND_MAX`, here the parameter `coinDefer`) or
commit the best parent.  The change-detection block only toggles the
stay-active/period counters and is not tracked here. -/
def mlst_recalculate (own : Nat) (coinDefer : Bool) (nbrs : List Nbr) : Result :=
  let a := plainFold own nbrs
  if a.crash then Result.crash
  else
    match a.best_parent with
    | some b =>
      if 1 < a.number_of_potential_parents ∧ coinDefer then
        Result.undefined ⟨0xff, 0, a.children_count⟩
      else
        Result.committed ⟨a.distance_to_root, b.id, a.children_count⟩ b
    | none => Result.undefined ⟨0xff, 0, a.children_count⟩

/-- A neighbor is a potential parent ("not counted as a child") iff its
published parent is neither undefined nor this node. -/
def isCand (own : Nat) (n : Nbr) : Prop :=
  n.pv.parent_id ≠ 0 ∧ n.pv.parent_id ≠ own

instance (own : Nat) (n : Nbr) : Decidable (isCand own n) := by
  unfold isCand; infer_instance

/-- `b` strictly precedes `m` in the parent-selection order: smaller
distance wins, ties are broken by larger children count, then by lower
id — the lexicographic order on (distance_to_root + 1, −children_count,
id). -/
def betterParent (b m : Nbr) : Prop :=
  b.pv.distance_to_root < m.pv.distance_to_root
  ∨ (b.pv.distance_to_root = m.pv.distance_to_root
     ∧ m.pv.children_count < b.pv.children_count)
  ∨ (b.pv.distance_to_root = m.pv.distance_to_root
     ∧ b.pv.children_count = m.pv.children_count
     ∧ b.id < m.id)

instance (b m : Nbr) : Decidable (betterParent b m) := by
  unfold betterParent; infer_instance

/-- A well-formed PVN snapshot: each published distance fits in the
`uint8_t` field and ids are pairwise distinct (the PVN keeps at most one
entry per id). -/
def WfView (l : List Nbr) : Prop :=
  (∀ n ∈ l, n.pv.distance_to_root ≤ 0xff) ∧ l.Pairwise (fun x y => x.id ≠ y.id)

instance (l : List Nbr) : Decidable (WfView l) := by
  unfold WfView; infer_instance

/-- Loop invariant of the neighbor scan over a processed prefix: unless
the null dereference already happened, a null best-parent pointer means
every processed potential parent published the 0xff (unknown) distance,
and a recorded best parent is a processed potential parent with known
distance that strictly precedes every other processed potential parent in
the selection order. -/
def Inv (own : Nat) (processed : List Nbr) (a : Acc) : Prop :=
  a.crash = true ∨
    ((a.best_parent = none →
        a.distance_to_root = 0xff
        ∧ ∀ m ∈ processed, isCand own m → m.pv.distance_to_root = 0xff)
     ∧ ∀ b, a.best_parent = some b →
        b ∈ processed ∧ isCand own b
        ∧ b.pv.distance_to_root + 1 = a.distance_to_root
        ∧ a.distance_to_root ≤ 0xfe
        ∧ ∀ m ∈ processed, isCand own m → m.id ≠ b.id → betterParent b m)

/-! ### Root compilation of `mlst_network.h` -/

/-- The root node's MLST globals: the `mlst_parent` pointer (`none` =
null) and the own public variable. -/
structure RootState where
  mlst_parent : Option Nat
  pv : PV
  deriving DecidableEq, Repr

/-- Zero-initialized globals at boot. -/
def rootInit : RootState := ⟨none, ⟨0, 0, 0⟩⟩

/-- `mlst_recalculate` under `#ifdef ROOT`: set distance 0, parent id
0xffff, children count 0xff — and never touch `mlst_parent`. -/
def mlst_recalculate_root (s : RootState) : RootState :=
  { s with pv := ⟨0, 0xffff, 0xff⟩ }

/-- `onPvnDelete` on the root: reset the state iff the deleted entry is
the current `mlst_parent`. -/
def onPvnDelete_root (s : RootState) (deletedId : Nat) : RootState :=
  if some deletedId = s.mlst_parent then
    { s with mlst_parent := none, pv := ⟨0xff, 0, 0⟩ }
  else s

/-- `mlst_is_undefined`: 1 iff the parent pointer is null or the
published parent id is 0. -/
def mlst_is_undefined (s : RootState) : Nat :=
  if s.mlst_parent = none ∨ s.pv.parent_id = 0 then 1 else 0

/-- Events that touch the root's MLST state: a protocol round (whose
recompute is the ROOT branch) or a PVN delete callback. -/
inductive RootEv where
  | round
  | nbrDelete (id : Nat)

/-- Apply one root event. -/
def rootApply (s : RootState) : RootEv → RootState
  | RootEv.round => mlst_recalculate_root s
  | RootEv.nbrDelete i => onPvnDelete_root s i

/-- Apply a sequence of root events. -/
def rootRun (s : RootState) (evs : List RootEv) : RootState :=
  evs.foldl rootApply s

end MlstPlain

/-! ## Energy-aware MLST recompute, algorithm 2 (`mlst_network-ea2.h`) -/

namespace MlstEa2

/-- `struct mlst_public_variable` of the EA variant. -/
structure PV where
  distance_to_root_high : Nat
  distance_to_root_middle : Nat
  distance_to_root_low : Nat
  parent_id : Nat
  children_count : Nat
  energy_state : Nat
  deriving DecidableEq, Repr

/-- A neighbor as seen by the EA `mlst_recalculate`. -/
structure Nbr where
  id : Nat
  pv : PV
  deriving DecidableEq, Repr

/-- Loop state of the EA neighbor scan. -/
structure Acc where
  children_count : Nat
  distance_to_root_high : Nat
  distance_to_root_middle : Nat
  distance_to_root_low : Nat
  number_of_potential_parents : Nat
  best_parent : Option Nbr
  stayActive : Bool
  crash : Bool
  deriving DecidableEq, Repr

/-- Initial loop state: all three distances at the 0xff sentinel. -/
def accInit : Acc := ⟨0, 0xff, 0xff, 0xff, 0, none, false, false⟩

/-- One iteration of the EA neighbor loop.  The equal-distance block runs
*before* any improvement block, so on the very first potential parent it
can reach `best_parent_pv->children_count` with `best_parent_pv` still
null (recorded in `crash`); the three improvement blocks then update the
tier distances sequentially, each later block observing the updates of the
earlier ones, exactly as in the C. -/
def eaStep (own : Nat) (a : Acc) (n : Nbr) : Acc :=
  if a.crash then a
  else if n.pv.parent_id = 0 then
    { a with stayActive := true, children_count := a.children_count + 1 }
  else if n.pv.parent_id = own ∨ n.pv.energy_state = 0 then
    { a with children_count := a.children_count + 1 }
  else
    let tieCond :=
      (n.pv.energy_state = 1 ∧ n.pv.distance_to_root_high ≠ 0xff
        ∧ n.pv.distance_to_root_high + 1 = a.distance_to_root_high)
      ∨ (a.distance_to_root_high = 0xff ∧ n.pv.energy_state ≠ 3
        ∧ n.pv.distance_to_root_middle ≠ 0xff
        ∧ n.pv.distance_to_root_middle + 1 = a.distance_to_root_middle)
      ∨ (a.distance_to_root_high = 0xff ∧ a.distance_to_root_middle = 0xff
        ∧ n.pv.distance_to_root_low ≠ 0xff
        ∧ n.pv.distance_to_root_low + 1 = a.distance_to_root_low)
    let a1 :=
      if tieCond then
        match a.best_parent with
        | none => { a with crash := true }
        | some b =>
          if b.pv.children_count < n.pv.children_count then
            { a with number_of_potential_parents := 1, best_parent := some n }
          else if b.pv.children_count = n.pv.children_count then
            let a2 := { a with number_of_potential_parents := a.number_of_potential_parents + 1 }
            if n.id < b.id then { a2 with best_parent := some n } else a2
          else a
      else a
    if a1.crash then a1
    else
      let a2 :=
        if n.pv.energy_state = 1 ∧ n.pv.distance_to_root_high ≠ 0xff
            ∧ n.pv.distance_to_root_high + 1 < a1.distance_to_root_high then
          { a1 with distance_to_root_high := n.pv.distance_to_root_high + 1,
                    number_of_potential_parents := 1,
                    best_parent := some n }
        else a1
      let a3 :=
        if n.pv.energy_state ≠ 3 ∧ n.pv.distance_to_root_middle ≠ 0xff
            ∧ n.pv.distance_to_root_middle + 1 < a2.distance_to_root_middle then
          let a' : Acc := { a2 with distance_to_root_middle := n.pv.distance_to_root_middle + 1 }
          if a'.distance_to_root_high = 0xff then
            { a' with number_of_potential_parents := 1, best_parent := some n }
          else a'
        else a2
      if n.pv.distance_to_root_low ≠ 0xff
          ∧ n.pv.distance_to_root_low + 1 < a3.distance_to_root_low then
        let a' : Acc := { a3 with distance_to_root_low := n.pv.distance_to_root_low + 1 }
        if a'.distance_to_root_high = 0xff ∧ a'.distance_to_root_middle = 0xff then
          { a' with number_of_potential_parents := 1, best_parent := some n }
        else a'
      else a3

/-- The full EA neighbor scan. -/
def eaFold (own : Nat) (nbrs : List Nbr) : Acc :=
  nbrs.foldl (eaStep own) accInit

/-- Outcome of one non-root EA `mlst_recalculate` round. -/
inductive Result where
  | crash
  | committed (pv : PV) (parent : Nbr)
  | undefined (pv : PV)
  deriving DecidableEq, Repr

/-- The non-root EA `mlst_recalculate` (commit structure identical to the
plain variant, with the three tier distances published).  The
`energy_state` field of the own variable is written only by
`eamlst_set_energy_state`, never by `mlst_recalculate`; the 0 in the
result records are placeholders for that untouched field. -/
def mlst_recalculate (own : Nat) (coinDefer : Bool) (nbrs : List Nbr) : Result :=
  let a := eaFold own nbrs
  if a.crash then Result.crash
  else
    match a.best_parent with
    | some b =>
      if 1 < a.number_of_potential_parents ∧ coinDefer then
        Result.undefined ⟨0xff, 0xff, 0xff, 0, a.children_count, 0⟩
      else
        Result.committed
          ⟨a.distance_to_root_high, a.distance_to_root_middle, a.distance_to_root_low,
           b.id, a.children_count, 0⟩ b
    | none => Result.undefined ⟨0xff, 0xff, 0xff, 0, a.children_count, 0⟩

end MlstEa2

/-! ## Theorems -/

/-- C1.  Root-side deduplication does not happen: the ROOT compilation of
`rsu_on_new_message` consults `rsu_check_history` but never calls
`rsu_add_history`, so the history stays empty forever on a root node and a
second receive of the same (source, seqno) pair — here (5, 7), the
retransmission that follows a lost ACK — is delivered to the root's
new-message callback a second time.  The history is also unchanged by the
first receive. -/
theorem rsu_root_duplicate_delivered :
    (rsu_on_new_message_root true ([], 0) 5 7 [1, 2, 3]).delivered = [(5, 7, [1, 2, 3])]
    ∧ (rsu_on_new_message_root true ([], 0) 5 7 [1, 2, 3]).hist = ([], 0)
    ∧ (rsu_on_new_message_root true
        (rsu_on_new_message_root true ([], 0) 5 7 [1, 2, 3]).hist
        5 7 [1, 2, 3]).delivered = [(5, 7, [1, 2, 3])] :=
  ⟨rfl, rfl, rfl⟩

/-- C2.  `rsu_add_history` corrupts its own bookkeeping when the prior
entry of the sender sits in the middle of the list: adding (1,10), (2,20)
and then (2,30), the loop splices out the old entry (2,20) without
decrementing `rsu_history_size`, then — because the spliced-out entry was
the last one — exits without inserting (2,30) at all.  The resulting
history is the single entry (1,10) while the size counter reads 2, so the
counter does not equal the number of entries and the most recently added
seqno of source 2 is not retained. -/
theorem rsu_add_history_size_mismatch :
    rsu_add_history (rsu_add_history (rsu_add_history ([], 0) 1 10) 2 20) 2 30
      = ([(1, 10)], 2)
    ∧ (rsu_add_history (rsu_add_history (rsu_add_history ([], 0) 1 10) 2 20) 2 30).1.length
      = 1 :=
  ⟨rfl, rfl⟩

/-- C4.  One call of `pvn_remove_old_neighbor_information` does not remove
all over-age entries: with `max_age = 5` at time 20, on the list
[fresh (t=18), old (t=1), old (t=2)], the second removal loop splices out
the first old entry and then skips over its successor, so the entry with
timestamp 2 — of age 18 > 5 — survives the sweep, and `on_delete` fires
only for the entry with id 11. -/
theorem pvn_sweep_misses_entry :
    (Pvn.pvn_remove_old_neighbor_information
      { nbrList := [⟨10, some [], 18⟩, ⟨11, some [], 1⟩, ⟨12, some [], 2⟩]
        neighborhood_size := 3
        maximum_age_of_neighbor_information := 5
        cmp := none, onNewSet := true, onChangeSet := true, onDeleteSet := true } 20).1.nbrList
      = [⟨10, some [], 18⟩, ⟨12, some [], 2⟩]
    ∧ (Pvn.pvn_remove_old_neighbor_information
      { nbrList := [⟨10, some [], 18⟩, ⟨11, some [], 1⟩, ⟨12, some [], 2⟩]
        neighborhood_size := 3
        maximum_age_of_neighbor_information := 5
        cmp := none, onNewSet := true, onChangeSet := true, onDeleteSet := true } 20).2
      = [Pvn.Event.onDelete 11]
    ∧ 5 < 20 - (⟨12, (some [] : Option (List Nat)), 2⟩ : Pvn.Nbr).timestamp :=
  ⟨rfl, rfl, by decide⟩

/-- C6.  The compare-and-replace on `children_count` is reachable while
the best-parent pointer is still null: in the plain recompute a first
potential parent publishing distance 254 satisfies
`distance_to_root + 1 == 0xff` against the initial sentinel, and in the
EA2 recompute a first potential parent with high energy and high-tier
distance 254 satisfies the first disjunct of the equal-distance guard; in
both cases the C code reads `best_parent_pv->children_count` through a
null pointer, recorded here as the `crash` outcome. -/
theorem mlst_recalculate_null_deref :
    MlstPlain.mlst_recalculate 1 false [⟨9, ⟨254, 7, 0⟩⟩] = MlstPlain.Result.crash
    ∧ MlstEa2.mlst_recalculate 1 false [⟨9, ⟨254, 255, 255, 7, 0, 1⟩⟩]
      = MlstEa2.Result.crash :=
  ⟨rfl, rfl⟩

namespace MlstPlain

/-- In every state reachable on a ROOT node the `mlst_parent` pointer is
still null: the ROOT branch of `mlst_recalculate` never assigns it and
`onPvnDelete` can only clear it. -/
theorem rootRun_parent_none (evs : List RootEv) (s : RootState)
    (h : s.mlst_parent = none) : (rootRun s evs).mlst_parent = none := by
  induction evs generalizing s with
  | nil => simpa [rootRun]
  | cons e rest ih =>
    cases e with
    | round =>
      exact ih _ (by simpa [rootApply, mlst_recalculate_root] using h)
    | nbrDelete i =>
      refine ih _ ?_
      simp only [rootApply, onPvnDelete_root]
      split
      · rfl
      · exact h

end MlstPlain

/-- C9.  On a node compiled with the ROOT flag, `mlst_is_undefined()`
returns 1 after every sequence of rounds and PVN-delete callbacks,
forever: the root's recompute writes `parent_id = 0xffff` into the public
variable but never assigns the `mlst_parent` pointer that
`mlst_is_undefined` checks first. -/
theorem mlst_root_always_undefined (evs : List MlstPlain.RootEv) :
    MlstPlain.mlst_is_undefined (MlstPlain.rootRun MlstPlain.rootInit evs) = 1
    ∧ (MlstPlain.rootRun MlstPlain.rootInit (evs ++ [MlstPlain.RootEv.round])).pv.parent_id
      = 0xffff
    ∧ (MlstPlain.rootRun MlstPlain.rootInit (evs ++ [MlstPlain.RootEv.round])).mlst_parent
      = none := by
  refine ⟨?_, ?_, ?_⟩
  · simp [MlstPlain.mlst_is_undefined,
      MlstPlain.rootRun_parent_none evs MlstPlain.rootInit rfl]
  · simp [MlstPlain.rootRun, MlstPlain.rootApply, MlstPlain.mlst_recalculate_root]
  · have h := MlstPlain.rootRun_parent_none (evs ++ [MlstPlain.RootEv.round])
      MlstPlain.rootInit rfl
  -- the appended round leaves the (null) parent pointer untouched
    exact h

/-- C8.  Every inbound RSU data packet is answered with a single ACK — the
literal byte 'A' (65) — sent to the sender on the ACK channel, in both the
ROOT and the forwarding compilation of `rsu_on_new_message`, regardless of
whether the packet is then detected as a duplicate and dropped. -/
theorem rsu_ack_always_sent (cb : Bool) (st : RsuState) (tmr : RsuTimerState)
    (h1 h2 : RsuHistory) (src seqno : Nat) (payload : List Nat) :
    (rsu_on_new_message_root cb h1 src seqno payload).acks = [(src, 65)]
    ∧ (rsu_on_new_message st tmr h2 src seqno payload).acks = [(src, 65)] := by
  refine ⟨rfl, ?_⟩
  unfold rsu_on_new_message
  split <;> rfl

/-- Once the RSU timer is disarmed, no further callback fires and no
further event is emitted, whatever the remaining fuel. -/
theorem rsuRun_idle (k : Nat) (s : RsuState) :
    rsuRun k (s, RsuTimerState.idle) = (s, RsuTimerState.idle, []) := by
  cases k <;> rfl

/-- C3.  Retry exhaustion: `rsunicast_send` on an idle RSU with a
configured parent that never acknowledges leads to exactly
`MAX_TRIES + 1 = 6` transmissions of the head envelope (tries 1..6): each
firing of the send timer transmits the head once and arms the ACK
timeout, each of the first five timeouts fires the failure callback and
re-arms the send timer, and the sixth timeout fires the failure callback
a sixth time, frees the head — leaving the queue empty — and arms no
timer, after which no firing sequence transmits anything again. -/
theorem rsu_retry_exhaustion (p q : Nat) (aslp : Bool) (payload : List Nat) (hp : p ≠ 0) :
    let s0 : RsuState := ⟨[], q, true, aslp, p, 0, true, false⟩
    let r0 := rsunicast_send s0 payload
    let a1 := rsu_send_next_message r0.1
    let b1 := rsu_on_ack_timeout a1.1
    let a2 := rsu_send_next_message b1.1
    let b2 := rsu_on_ack_timeout a2.1
    let a3 := rsu_send_next_message b2.1
    let b3 := rsu_on_ack_timeout a3.1
    let a4 := rsu_send_next_message b3.1
    let b4 := rsu_on_ack_timeout a4.1
    let a5 := rsu_send_next_message b4.1
    let b5 := rsu_on_ack_timeout a5.1
    let a6 := rsu_send_next_message b5.1
    let b6 := rsu_on_ack_timeout a6.1
    (a1.2.1 = [RsuEvent.transmit p (q :: payload)]
      ∧ a2.2.1 = [RsuEvent.transmit p (q :: payload)]
      ∧ a3.2.1 = [RsuEvent.transmit p (q :: payload)]
      ∧ a4.2.1 = [RsuEvent.transmit p (q :: payload)]
      ∧ a5.2.1 = [RsuEvent.transmit p (q :: payload)]
      ∧ a6.2.1 = [RsuEvent.transmit p (q :: payload)])
    ∧ (b1.2.1 = [RsuEvent.cbFail p 1]
      ∧ b2.2.1 = [RsuEvent.cbFail p 2]
      ∧ b3.2.1 = [RsuEvent.cbFail p 3]
      ∧ b4.2.1 = [RsuEvent.cbFail p 4]
      ∧ b5.2.1 = [RsuEvent.cbFail p 5]
      ∧ b6.2.1.filter isCbFail = [RsuEvent.cbFail p 6]
      ∧ b6.2.1.filter isTransmit = [])
    ∧ b6.1.rsu_queue = []
    ∧ (r0.2.2 = some RsuTimerState.armedSend
      ∧ a1.2.2 = RsuTimerState.armedTimeout ∧ b1.2.2 = RsuTimerState.armedSend
      ∧ a2.2.2 = RsuTimerState.armedTimeout ∧ b2.2.2 = RsuTimerState.armedSend
      ∧ a3.2.2 = RsuTimerState.armedTimeout ∧ b3.2.2 = RsuTimerState.armedSend
      ∧ a4.2.2 = RsuTimerState.armedTimeout ∧ b4.2.2 = RsuTimerState.armedSend
      ∧ a5.2.2 = RsuTimerState.armedTimeout ∧ b5.2.2 = RsuTimerState.armedSend
      ∧ a6.2.2 = RsuTimerState.armedTimeout ∧ b6.2.2 = RsuTimerState.idle)
    ∧ ∀ k, (rsuRun k (b6.1, b6.2.2)).2.2 = [] := by
  cases aslp <;>
    simp [rsunicast_send, rsu_send_next_message, rsu_on_ack_timeout, hp,
      MAX_TRIES, isTransmit, isCbFail, rsuRun_idle]

/-- Witness for C3 at parent 4, initial seqno 0, payload [9]. -/
theorem rsu_retry_exhaustion_witness :
    (4 : Nat) ≠ 0
    ∧ (rsu_send_next_message
        (rsunicast_send ⟨[], 0, true, false, 4, 0, true, false⟩ [9]).1).2.1
      = [RsuEvent.transmit 4 [0, 9]] :=
  ⟨by decide, (rsu_retry_exhaustion 4 0 false [9] (by decide)).1.1⟩

namespace Pvn

theorem find_update_fresh (s : PVN) (id now : Nat) (payload : List Nat) (l : List Nbr) :
    l ≠ [] → id ∉ l.map Nbr.id →
    find_update s id now payload l
      = (l ++ [⟨id, some payload, now⟩],
         if s.onNewSet then [Event.onNew id] else []) := by
  induction l with
  | nil => intro h; exact absurd rfl h
  | cons n rest ih =>
    intro _ hmem
    have hne : ¬ n.id = id := by
      intro he
      exact hmem (by simp [he])
    cases rest with
    | nil =>
      rw [find_update.eq_def]
      simp [hne, handle_found]
    | cons m ms =>
      have hrec := ih (by simp) (by
        intro hc
        apply hmem
        simp only [List.map_cons, List.mem_cons] at hc ⊢
        exact Or.inr hc)
      rw [find_update.eq_def]
      simp only [hne, if_false, ite_false]
      rw [hrec]
      simp

theorem find_update_existing (s : PVN) (id now : Nat) (payload : List Nat)
    (x : Nbr) (old : List Nat) (l₂ : List Nbr)
    (hx : x.id = id) (hpv : x.public_var = some old) (l₁ : List Nbr) :
    id ∉ l₁.map Nbr.id →
    find_update s id now payload (l₁ ++ x :: l₂)
      = (l₁ ++ { x with timestamp := now, public_var := some payload } :: l₂,
         if pvnChanged s.cmp old payload && s.onChangeSet then [Event.onChange id] else []) := by
  subst hx
  induction l₁ with
  | nil =>
    intro _
    rw [find_update.eq_def]
    simp [handle_found, hpv]
  | cons n l₁ ih =>
    intro hmem
    have hne : ¬ n.id = x.id := by
      intro he
      exact hmem (by simp [he])
    have hrec := ih (by
      intro hc
      apply hmem
      simp only [List.map_cons, List.mem_cons] at hc ⊢
      exact Or.inr hc)
    cases l₁ with
    | nil =>
      rw [find_update.eq_def]
      simp only [List.nil_append, List.cons_append, hne, if_false, ite_false]
      rw [List.nil_append] at hrec
      rw [hrec]
      simp
    | cons m ms =>
      rw [find_update.eq_def]
      simp only [List.cons_append, hne, if_false, ite_false]
      rw [List.cons_append] at hrec
      rw [hrec]
      simp

theorem exists_first_with_id (id : Nat) (l : List Nbr) (h : id ∈ l.map Nbr.id) :
    ∃ l₁ x l₂, l = l₁ ++ x :: l₂ ∧ x.id = id ∧ id ∉ l₁.map Nbr.id := by
  induction l with
  | nil => simp at h
  | cons n rest ih =>
    by_cases hn : n.id = id
    · exact ⟨[], n, rest, by simp, hn, by simp⟩
    · have h' : id ∈ rest.map Nbr.id := by
        rcases List.mem_cons.mp h with he | hm
        · exact absurd he.symm hn
        · exact hm
      obtain ⟨l₁, x, l₂, hl, hx, hnot⟩ := ih h'
      refine ⟨n :: l₁, x, l₂, by simp [hl], hx, ?_⟩
      intro hc
      rcases List.mem_cons.mp hc with he | hm
      · exact hn he.symm
      · exact hnot hm

theorem on_new_fresh (s : PVN) (id now : Nat) (payload : List Nat)
    (hid : id ∉ s.nbrList.map Nbr.id) :
    on_new_neighbor_information s id now payload
      = ({ s with nbrList := s.nbrList ++ [⟨id, some payload, now⟩],
                  neighborhood_size :=
                    s.neighborhood_size + (if s.onNewSet then 1 else 0) },
         if s.onNewSet then [Event.onNew id] else []) := by
  unfold on_new_neighbor_information
  cases hl : s.nbrList with
  | nil =>
    dsimp only
    rw [find_update.eq_def]
    cases hN : s.onNewSet <;>
      simp [handle_found, isNewEvent, hN, hl]
  | cons n rest =>
    rw [hl] at hid
    have hf := find_update_fresh s id now payload (n :: rest) (by simp) hid
    dsimp only
    rw [hf]
    cases hN : s.onNewSet <;>
      simp [isNewEvent, hN, hl, List.countP_cons, List.countP_nil]

theorem on_new_existing (s : PVN) (id now : Nat) (payload : List Nat)
    (l₁ : List Nbr) (x : Nbr) (l₂ : List Nbr) (old : List Nat)
    (hl : s.nbrList = l₁ ++ x :: l₂) (hnot : id ∉ l₁.map Nbr.id)
    (hx : x.id = id) (hpv : x.public_var = some old) :
    on_new_neighbor_information s id now payload
      = ({ s with nbrList := l₁ ++ { x with timestamp := now, public_var := some payload } :: l₂ },
         if pvnChanged s.cmp old payload && s.onChangeSet then [Event.onChange id] else []) := by
  unfold on_new_neighbor_information
  have hf := find_update_existing s id now payload x old l₂ hx hpv l₁ hnot
  have hcons : ∃ h t, l₁ ++ x :: l₂ = h :: t := by
    cases l₁ with
    | nil => exact ⟨x, l₂, rfl⟩
    | cons a as => exact ⟨a, as ++ x :: l₂, rfl⟩
  obtain ⟨h, t, hht⟩ := hcons
  rw [hl, hht]
  dsimp only
  rw [← hht, hf]
  have hcount : List.countP isNewEvent (if pvnChanged s.cmp old payload && s.onChangeSet
      then [Event.onChange id] else []) = 0 := by
    split <;> simp [isNewEvent]
  simp only [hcount, Nat.add_zero]

theorem pvnDeliverTimes_stable (id : Nat) (payload : List Nat) :
    ∀ (ts : List Nat) (s : PVN) (l₁ l₂ : List Nbr) (x : Nbr),
      s.nbrList = l₁ ++ x :: l₂ → id ∉ l₁.map Nbr.id → x.id = id →
      x.public_var = some payload →
      pvnChanged s.cmp payload payload = false →
      (pvnDeliverTimes id payload s ts).2 = []
  | [], _, _, _, _, _, _, _, _, _ => by simp [pvnDeliverTimes]
  | t :: ts, s, l₁, l₂, x, hl, hnot, hx, hpv, hc => by
    have hcall := on_new_existing s id t payload l₁ x l₂ payload hl hnot hx hpv
    have hrec := pvnDeliverTimes_stable id payload ts
      ({ s with nbrList := l₁ ++ { x with timestamp := t, public_var := some payload } :: l₂ })
      l₁ l₂ ({ x with timestamp := t, public_var := some payload })
      rfl hnot hx rfl hc
    simp [pvnDeliverTimes, hcall, hc, hrec]

theorem sweep_head_split (thr : Nat) : ∀ l : List Nbr,
    (sweep_head thr l).2 ++ (sweep_head thr l).1 = l
  | [] => by simp [sweep_head]
  | n :: rest => by
    by_cases hn : n.timestamp < thr
    · have ih := sweep_head_split thr rest
      rw [sweep_head.eq_def]
      simp only [hn, if_true, ite_true]
      simpa using ih
    · rw [sweep_head.eq_def]
      simp [hn]

theorem sweep_tail_length (thr : Nat) : ∀ (v : Nbr) (rest : List Nbr),
    (sweep_tail thr v rest).1.length + (sweep_tail thr v rest).2.length = rest.length + 1
  | _, [] => by rw [sweep_tail.eq_def]; simp
  | v, w :: ws => by
    by_cases hw : w.timestamp < thr
    · cases ws with
      | nil => rw [sweep_tail.eq_def]; simp [hw]
      | cons u us =>
        have ih := sweep_tail_length thr u us
        rw [sweep_tail.eq_def]
        simp only [hw, if_true, ite_true, List.length_cons]
        simp at ih ⊢
        omega
    · have ih := sweep_tail_length thr w ws
      rw [sweep_tail.eq_def]
      simp only [hw, if_false, ite_false, List.length_cons]
      simp at ih ⊢
      omega

theorem sweep_tail_subset (thr : Nat) : ∀ (v : Nbr) (rest : List Nbr) (n : Nbr),
    n ∈ (sweep_tail thr v rest).1 → n ∈ v :: rest
  | _, [], n => by rw [sweep_tail.eq_def]; simp
  | v, w :: ws, n => by
    by_cases hw : w.timestamp < thr
    · cases ws with
      | nil =>
        intro hn
        rw [sweep_tail.eq_def] at hn
        simp [hw] at hn
        simp [hn]
      | cons u us =>
        intro hn
        rw [sweep_tail.eq_def] at hn
        simp only [hw, if_true, ite_true] at hn
        simp only [List.mem_cons] at hn ⊢
        rcases hn with he | hm
        · exact Or.inl he
        · rcases List.mem_cons.mp (sweep_tail_subset thr u us n hm) with he | h2
          · exact Or.inr (Or.inr (Or.inl he))
          · exact Or.inr (Or.inr (Or.inr h2))
    · intro hn
      rw [sweep_tail.eq_def] at hn
      simp only [hw, if_false, ite_false] at hn
      simp only [List.mem_cons] at hn ⊢
      rcases hn with he | hm
      · exact Or.inl he
      · rcases List.mem_cons.mp (sweep_tail_subset thr w ws n hm) with he | h2
        · exact Or.inr (Or.inl he)
        · exact Or.inr (Or.inr h2)

theorem on_new_sizeInv (s : PVN) (id now : Nat) (payload : List Nat)
    (hNew : s.onNewSet = true) (hinv : SizeInv s) :
    SizeInv (on_new_neighbor_information s id now payload).1 := by
  obtain ⟨hpop, hsz⟩ := hinv
  by_cases hid : id ∈ s.nbrList.map Nbr.id
  · obtain ⟨l₁, x, l₂, hl, hx, hnot⟩ := exists_first_with_id id _ hid
    have hxmem : x ∈ s.nbrList := by
      rw [hl]; exact List.mem_append_right _ (List.mem_cons_self _ _)
    obtain ⟨old, hold⟩ : ∃ old, x.public_var = some old := by
      cases hxpv : x.public_var with
      | none => exact absurd hxpv (hpop x hxmem)
      | some o => exact ⟨o, rfl⟩
    rw [on_new_existing s id now payload l₁ x l₂ old hl hnot hx hold]
    constructor
    · intro n hn
      simp only at hn
      rcases List.mem_append.mp hn with h1 | h2
      · exact hpop n (by rw [hl]; exact List.mem_append_left _ h1)
      · rcases List.mem_cons.mp h2 with he | hm
        · rw [he]; simp
        · exact hpop n (by rw [hl]; exact List.mem_append_right _ (List.mem_cons_of_mem _ hm))
    · simp only
      rw [hsz, hl]
      simp
  · rw [on_new_fresh s id now payload hid]
    constructor
    · intro n hn
      simp only at hn
      rcases List.mem_append.mp hn with h1 | h2
      · exact hpop n h1
      · rcases List.mem_cons.mp h2 with he | hm
        · rw [he]; simp
        · simp at hm
    · simp only
      rw [hNew, hsz]
      simp

theorem sweep_sizeInv (s : PVN) (now : Nat)
    (hDel : s.onDeleteSet = true) (hinv : SizeInv s) :
    SizeInv (pvn_remove_old_neighbor_information s now).1 := by
  obtain ⟨hpop, hsz⟩ := hinv
  unfold pvn_remove_old_neighbor_information
  dsimp only
  rw [hDel]
  set thr := if now ≤ s.maximum_age_of_neighbor_information then 0
             else now - s.maximum_age_of_neighbor_information with hthr
  have hsplit := sweep_head_split thr s.nbrList
  have hlen : (sweep_head thr s.nbrList).2.length + (sweep_head thr s.nbrList).1.length
      = s.nbrList.length := by
    conv_rhs => rw [← hsplit]
    simp
  cases hl1 : (sweep_head thr s.nbrList).1 with
  | nil =>
    constructor
    · intro n hn; simp at hn
    · simp only [if_true, ite_true, List.length_nil]
      rw [hl1] at hlen
      simp at hlen
      simp [hsz, ← hlen]
  | cons v rest =>
    have htl := sweep_tail_length thr v rest
    constructor
    · intro n hn
      simp only at hn
      have hmem : n ∈ v :: rest := sweep_tail_subset thr v rest n hn
      have hmem2 : n ∈ s.nbrList := by
        rw [← hsplit, hl1]
        exact List.mem_append_right _ hmem
      exact hpop n hmem2
    · simp only [if_true, ite_true, List.length_append]
      rw [hl1] at hlen
      simp only [List.length_cons] at hlen
      omega

theorem handle_found_no_new (s : PVN) (now : Nat) (payload : List Nat) (n : Nbr)
    (hN : s.onNewSet = false) :
    List.countP isNewEvent (handle_found s now payload n).2 = 0 := by
  obtain ⟨nid, npv, nts⟩ := n
  cases npv with
  | none => simp [handle_found, hN]
  | some o =>
    simp only [handle_found]
    split <;> rfl

theorem find_update_no_new (s : PVN) (id now : Nat) (payload : List Nat)
    (hN : s.onNewSet = false) :
    ∀ l : List Nbr, List.countP isNewEvent (find_update s id now payload l).2 = 0
  | [] => by simp [find_update]
  | [n] => by
    rw [find_update.eq_def]
    by_cases hn : n.id = id <;>
      simp only [hn, if_true, if_false, ite_true, ite_false] <;>
      exact handle_found_no_new s now payload _ hN
  | n :: m :: ms => by
    by_cases hn : n.id = id
    · rw [find_update.eq_def]
      simp only [hn, if_true, ite_true]
      exact handle_found_no_new s now payload _ hN
    · rw [find_update.eq_def]
      simp only [hn, if_false, ite_false]
      exact find_update_no_new s id now payload hN (m :: ms)

theorem on_new_fields (s : PVN) (id now : Nat) (payload : List Nat) :
    (on_new_neighbor_information s id now payload).1.onNewSet = s.onNewSet
    ∧ (on_new_neighbor_information s id now payload).1.onChangeSet = s.onChangeSet
    ∧ (on_new_neighbor_information s id now payload).1.onDeleteSet = s.onDeleteSet
    ∧ (on_new_neighbor_information s id now payload).1.cmp = s.cmp
    ∧ (on_new_neighbor_information s id now payload).1.maximum_age_of_neighbor_information
      = s.maximum_age_of_neighbor_information :=
  ⟨rfl, rfl, rfl, rfl, rfl⟩

theorem sweep_fields (s : PVN) (now : Nat) :
    (pvn_remove_old_neighbor_information s now).1.onNewSet = s.onNewSet
    ∧ (pvn_remove_old_neighbor_information s now).1.onChangeSet = s.onChangeSet
    ∧ (pvn_remove_old_neighbor_information s now).1.onDeleteSet = s.onDeleteSet
    ∧ (pvn_remove_old_neighbor_information s now).1.cmp = s.cmp
    ∧ (pvn_remove_old_neighbor_information s now).1.maximum_age_of_neighbor_information
      = s.maximum_age_of_neighbor_information :=
  ⟨rfl, rfl, rfl, rfl, rfl⟩

theorem on_new_size_no_new (s : PVN) (id now : Nat) (payload : List Nat)
    (hN : s.onNewSet = false) :
    (on_new_neighbor_information s id now payload).1.neighborhood_size
      = s.neighborhood_size := by
  unfold on_new_neighbor_information
  dsimp only
  rw [find_update_no_new s id now payload hN]
  simp

theorem sweep_size_no_delete (s : PVN) (now : Nat) (hD : s.onDeleteSet = false) :
    (pvn_remove_old_neighbor_information s now).1.neighborhood_size
      = s.neighborhood_size := by
  unfold pvn_remove_old_neighbor_information
  dsimp only
  rw [hD]
  simp

theorem applyOps_sizeInv : ∀ (ops : List Op) (s : PVN),
    s.onNewSet = true → s.onDeleteSet = true → SizeInv s → SizeInv (applyOps s ops)
  | [], s, _, _, h => by simpa [applyOps] using h
  | op :: ops, s, hN, hD, h => by
    have hstep : SizeInv (applyOp s op) := by
      cases op with
      | deliver id now payload => exact on_new_sizeInv s id now payload hN h
      | sweep now => exact sweep_sizeInv s now hD h
    have hN' : (applyOp s op).onNewSet = true := by
      cases op with
      | deliver id now payload => rw [applyOp, (on_new_fields s id now payload).1]; exact hN
      | sweep now => rw [applyOp, (sweep_fields s now).1]; exact hN
    have hD' : (applyOp s op).onDeleteSet = true := by
      cases op with
      | deliver id now payload =>
        rw [applyOp, (on_new_fields s id now payload).2.2.1]; exact hD
      | sweep now => rw [applyOp, (sweep_fields s now).2.2.1]; exact hD
    have := applyOps_sizeInv ops (applyOp s op) hN' hD' hstep
    simpa [applyOps, List.foldl] using this

end Pvn

/-- C7.  PVN idempotence: delivering the same broadcast payload from a
neighbor not yet in the neighborhood one or more times, to a PVN whose
`onNew` and `onChange` callbacks are both set and whose change test does
not report a change on identical bytes (true of the default `memcmp`),
fires `onNew` exactly once — on the first delivery — and `onChange` never:
the complete event trace is the single `onNew`. -/
theorem pvn_repeat_delivery_idempotent (s : Pvn.PVN) (id t0 : Nat) (ts : List Nat)
    (payload : List Nat)
    (hNew : s.onNewSet = true) (_hChange : s.onChangeSet = true)
    (hcmp : Pvn.pvnChanged s.cmp payload payload = false)
    (hid : id ∉ s.nbrList.map Pvn.Nbr.id) :
    (Pvn.pvnDeliverTimes id payload s (t0 :: ts)).2 = [Pvn.Event.onNew id] := by
  have hcall := Pvn.on_new_fresh s id t0 payload hid
  have hrest := Pvn.pvnDeliverTimes_stable id payload ts
    ({ s with nbrList := s.nbrList ++ [⟨id, some payload, t0⟩],
              neighborhood_size := s.neighborhood_size + (if s.onNewSet then 1 else 0) })
    s.nbrList [] ⟨id, some payload, t0⟩ (by simp) hid rfl rfl hcmp
  simp only [hNew, ite_true] at hrest
  simp [Pvn.pvnDeliverTimes, hcall, hNew, hrest]

/-- Witness for C7: a PVN with default comparison and all callbacks set,
receiving [9, 9] from node 4 three times. -/
theorem pvn_repeat_delivery_idempotent_witness :
    (Pvn.pvn_init 15 none true true true).onNewSet = true
    ∧ Pvn.pvnChanged (Pvn.pvn_init 15 none true true true).cmp [9, 9] [9, 9] = false
    ∧ (4 : Nat) ∉ (Pvn.pvn_init 15 none true true true).nbrList.map Pvn.Nbr.id
    ∧ (Pvn.pvnDeliverTimes 4 [9, 9] (Pvn.pvn_init 15 none true true true) [1, 2, 3]).2
      = [Pvn.Event.onNew 4] :=
  ⟨rfl, by decide, by decide,
   pvn_repeat_delivery_idempotent (Pvn.pvn_init 15 none true true true) 4 1 [2, 3] [9, 9]
     rfl rfl (by decide) (by decide)⟩

/-- C10.  The PVN size counter: starting from `pvn_init` with both the
`onNew` and the `onDelete` callback set, after any sequence of inbound
broadcasts and aging sweeps `pvn_neighborhood_size` (the counter read by
that accessor) equals the number of entries in the neighbor list; and
because the counter updates sit inside the null checks of the respective
callback, a delivery with `onNew` unset and a sweep with `onDelete` unset
leave the counter unchanged, whatever they do to the list. -/
theorem pvn_neighborhood_size_counter :
    (∀ (maxAge : Nat) (cmp : Option (List Nat → List Nat → Bool)) (bc : Bool)
        (ops : List Pvn.Op),
      (Pvn.applyOps (Pvn.pvn_init maxAge cmp true bc true) ops).neighborhood_size
        = (Pvn.applyOps (Pvn.pvn_init maxAge cmp true bc true) ops).nbrList.length)
    ∧ (∀ (s : Pvn.PVN) (id now : Nat) (payload : List Nat), s.onNewSet = false →
        (Pvn.on_new_neighbor_information s id now payload).1.neighborhood_size
          = s.neighborhood_size)
    ∧ (∀ (s : Pvn.PVN) (now : Nat), s.onDeleteSet = false →
        (Pvn.pvn_remove_old_neighbor_information s now).1.neighborhood_size
          = s.neighborhood_size) := by
  refine ⟨?_, ?_, ?_⟩
  · intro maxAge cmp bc ops
    have hinit : Pvn.SizeInv (Pvn.pvn_init maxAge cmp true bc true) := by
      constructor
      · intro n hn; simp [Pvn.pvn_init] at hn
      · rfl
    exact (Pvn.applyOps_sizeInv ops (Pvn.pvn_init maxAge cmp true bc true) rfl rfl hinit).2
  · intro s id now payload hN
    exact Pvn.on_new_size_no_new s id now payload hN
  · intro s now hD
    exact Pvn.sweep_size_no_delete s now hD

/-- Witness for C10: two deliveries and a sweep on an all-callbacks PVN,
plus the no-adjustment cases on PVNs with the respective callback unset. -/
theorem pvn_neighborhood_size_counter_witness :
    ((Pvn.applyOps (Pvn.pvn_init 5 none true true true)
        [Pvn.Op.deliver 3 1 [7], Pvn.Op.deliver 8 2 [9], Pvn.Op.sweep 100]).neighborhood_size
      = (Pvn.applyOps (Pvn.pvn_init 5 none true true true)
        [Pvn.Op.deliver 3 1 [7], Pvn.Op.deliver 8 2 [9], Pvn.Op.sweep 100]).nbrList.length)
    ∧ (Pvn.pvn_init 5 none false true true).onNewSet = false
    ∧ ((Pvn.on_new_neighbor_information (Pvn.pvn_init 5 none false true true) 3 1 [7]).1.neighborhood_size
      = (Pvn.pvn_init 5 none false true true).neighborhood_size)
    ∧ (Pvn.pvn_init 5 none true true false).onDeleteSet = false
    ∧ ((Pvn.pvn_remove_old_neighbor_information (Pvn.pvn_init 5 none true true false) 100).1.neighborhood_size
      = (Pvn.pvn_init 5 none true true false).neighborhood_size) :=
  ⟨pvn_neighborhood_size_counter.1 5 none true
      [Pvn.Op.deliver 3 1 [7], Pvn.Op.deliver 8 2 [9], Pvn.Op.sweep 100],
   rfl,
   pvn_neighborhood_size_counter.2.1 (Pvn.pvn_init 5 none false true true) 3 1 [7] rfl,
   rfl,
   pvn_neighborhood_size_counter.2.2 (Pvn.pvn_init 5 none true true false) 100 rfl⟩

namespace MlstPlain

theorem pairwise_id_eq {l : List Nbr} (hpw : l.Pairwise (fun x y => x.id ≠ y.id))
    {m b : Nbr} (hm : m ∈ l) (hb : b ∈ l) (hid : m.id = b.id) : m = b := by
  induction l with
  | nil => simp at hm
  | cons a t ih =>
    rcases List.pairwise_cons.mp hpw with ⟨ha, hpt⟩
    rcases List.mem_cons.mp hm with hm1 | hm2 <;> rcases List.mem_cons.mp hb with hb1 | hb2
    · rw [hm1, hb1]
    · exfalso
      apply ha b hb2
      rw [← hm1]
      exact hid
    · exfalso
      apply ha m hm2
      rw [hb1] at hid
      exact hid.symm
    · exact ih hpt hm2 hb2

theorem betterParent_trans {a b c : Nbr}
    (h1 : betterParent a b) (h2 : betterParent b c) : betterParent a c := by
  unfold betterParent at h1 h2 ⊢
  omega

theorem plainStep_inv (own : Nat) (a : Acc) (n : Nbr) (processed : List Nbr)
    (hbound : n.pv.distance_to_root ≤ 0xff)
    (hids : ∀ m ∈ processed, m.id ≠ n.id)
    (hpw : processed.Pairwise (fun x y => x.id ≠ y.id))
    (hInv : Inv own processed a) :
    Inv own (processed ++ [n]) (plainStep own a n) := by
  have hmemP : ∀ m, m ∈ processed ++ [n] → m ∈ processed ∨ m = n := by
    intro m hm
    rcases List.mem_append.mp hm with h | h
    · exact Or.inl h
    · right; simpa using h
  by_cases hc : a.crash = true
  · left
    simp [plainStep, hc]
  · have hcf : a.crash = false := by simpa using hc
    rcases hInv with hcr | ⟨hnone, hsome⟩
    · rw [hcr] at hcf; cases hcf
    by_cases h0 : n.pv.parent_id = 0
    · -- neighbor with undefined state: counted as child
      have hstep : plainStep own a n
          = { a with stayActive := true, children_count := a.children_count + 1 } := by
        unfold plainStep
        rw [if_neg hc, if_pos h0]
      rw [hstep]
      right
      constructor
      · intro hbn
        refine ⟨(hnone hbn).1, ?_⟩
        intro m hm hcand
        rcases hmemP m hm with h | h
        · exact (hnone hbn).2 m h hcand
        · exact absurd (h ▸ hcand).1 (by simpa using h0)
      · intro b hb
        obtain ⟨h1, h2, h3, h4, h5⟩ := hsome b hb
        refine ⟨List.mem_append_left _ h1, h2, h3, h4, ?_⟩
        intro m hm hcand hmid
        rcases hmemP m hm with h | h
        · exact h5 m h hcand hmid
        · exact absurd (h ▸ hcand).1 (by simpa using h0)
    · by_cases hown : n.pv.parent_id = own
      · -- defined child
        have hstep : plainStep own a n
            = { a with children_count := a.children_count + 1 } := by
          unfold plainStep
          rw [if_neg hc, if_neg h0, if_pos hown]
        rw [hstep]
        right
        constructor
        · intro hbn
          refine ⟨(hnone hbn).1, ?_⟩
          intro m hm hcand
          rcases hmemP m hm with h | h
          · exact (hnone hbn).2 m h hcand
          · exact absurd (h ▸ hcand).2 (by simpa using hown)
        · intro b hb
          obtain ⟨h1, h2, h3, h4, h5⟩ := hsome b hb
          refine ⟨List.mem_append_left _ h1, h2, h3, h4, ?_⟩
          intro m hm hcand hmid
          rcases hmemP m hm with h | h
          · exact h5 m h hcand hmid
          · exact absurd (h ▸ hcand).2 (by simpa using hown)
      · -- potential parent
        have hcand_n : isCand own n := ⟨h0, hown⟩
        have ha255 : a.distance_to_root ≤ 0xff := by
          cases hbp : a.best_parent with
          | none => exact le_of_eq (hnone hbp).1
          | some b0 => exact le_trans (hsome b0 hbp).2.2.2.1 (by norm_num)
        by_cases hlt : n.pv.distance_to_root + 1 < a.distance_to_root
        · -- strictly closer: becomes the new best parent
          have hstep : plainStep own a n
              = { a with distance_to_root := n.pv.distance_to_root + 1,
                         number_of_potential_parents := 1,
                         best_parent := some n } := by
            unfold plainStep
            rw [if_neg hc, if_neg h0, if_neg hown, if_pos hlt]
          rw [hstep]
          right
          constructor
          · intro hbn; simp at hbn
          · intro b hb
            simp only [Option.some.injEq] at hb
            subst hb
            refine ⟨List.mem_append_right _ (by simp), hcand_n, rfl, ?_, ?_⟩
            · show n.pv.distance_to_root + 1 ≤ 0xfe
              cases hbp : a.best_parent with
              | none => have := (hnone hbp).1; omega
              | some b0 => have := (hsome b0 hbp).2.2.2.1; omega
            · intro m hm hcand hmid
              rcases hmemP m hm with h | h
              · cases hbp : a.best_parent with
                | none =>
                  have hm255 := (hnone hbp).2 m h hcand
                  have hd255 := (hnone hbp).1
                  left
                  omega
                | some b0 =>
                  obtain ⟨hb1, hb2, hb3, hb4, hb5⟩ := hsome b0 hbp
                  have hnb0 : betterParent n b0 := by left; omega
                  by_cases hmb0 : m.id = b0.id
                  · have hmeq : m = b0 := pairwise_id_eq hpw h hb1 hmb0
                    rw [hmeq]
                    exact hnb0
                  · exact betterParent_trans hnb0 (hb5 m h hcand hmb0)
              · exact absurd (congrArg Nbr.id h) hmid
        · by_cases heq : n.pv.distance_to_root + 1 = a.distance_to_root
          · cases hbp : a.best_parent with
            | none =>
              -- null dereference of best_parent_pv
              have hstep : plainStep own a n = { a with crash := true } := by
                unfold plainStep
                rw [if_neg hc, if_neg h0, if_neg hown, if_neg hlt, if_pos heq, hbp]
              rw [hstep]
              left
              rfl
            | some b0 =>
              obtain ⟨hb1, hb2, hb3, hb4, hb5⟩ := hsome b0 hbp
              have hnid : b0.id ≠ n.id := hids b0 hb1
              have hdeq : n.pv.distance_to_root = b0.pv.distance_to_root := by omega
              by_cases hcc : b0.pv.children_count < n.pv.children_count
              · -- more children: replaces the best parent
                have hstep : plainStep own a n
                    = { a with number_of_potential_parents := 1, best_parent := some n } := by
                  unfold plainStep
                  rw [if_neg hc, if_neg h0, if_neg hown, if_neg hlt, if_pos heq, hbp]
                  dsimp only
                  rw [if_pos hcc]
                rw [hstep]
                right
                constructor
                · intro hbn; simp at hbn
                · intro b hb
                  simp only [Option.some.injEq] at hb
                  subst hb
                  have hnb0 : betterParent n b0 := by
                    right; left; exact ⟨hdeq, hcc⟩
                  refine ⟨List.mem_append_right _ (by simp), hcand_n, heq, hb4, ?_⟩
                  intro m hm hcand hmid
                  rcases hmemP m hm with h | h
                  · by_cases hmb0 : m.id = b0.id
                    · have hmeq : m = b0 := pairwise_id_eq hpw h hb1 hmb0
                      rw [hmeq]
                      exact hnb0
                    · exact betterParent_trans hnb0 (hb5 m h hcand hmb0)
                  · exact absurd (congrArg Nbr.id h) hmid
              · by_cases hcceq : b0.pv.children_count = n.pv.children_count
                · by_cases hid2 : n.id < b0.id
                  · -- same tuple, lower id: replaces the best parent
                    have hstep : plainStep own a n
                        = { a with number_of_potential_parents :=
                                     a.number_of_potential_parents + 1,
                                   best_parent := some n } := by
                      unfold plainStep
                      rw [if_neg hc, if_neg h0, if_neg hown, if_neg hlt, if_pos heq, hbp]
                      dsimp only
                      rw [if_neg hcc, if_pos hcceq, if_pos hid2]
                    rw [hstep]
                    right
                    constructor
                    · intro hbn; simp at hbn
                    · intro b hb
                      simp only [Option.some.injEq] at hb
                      subst hb
                      have hnb0 : betterParent n b0 := by
                        right; right; exact ⟨hdeq, hcceq.symm, hid2⟩
                      refine ⟨List.mem_append_right _ (by simp), hcand_n, heq, hb4, ?_⟩
                      intro m hm hcand hmid
                      rcases hmemP m hm with h | h
                      · by_cases hmb0 : m.id = b0.id
                        · have hmeq : m = b0 := pairwise_id_eq hpw h hb1 hmb0
                          rw [hmeq]
                          exact hnb0
                        · exact betterParent_trans hnb0 (hb5 m h hcand hmb0)
                      · exact absurd (congrArg Nbr.id h) hmid
                  · -- tie kept: the old best parent still precedes everyone
                    have hstep : plainStep own a n
                        = { a with number_of_potential_parents :=
                                     a.number_of_potential_parents + 1 } := by
                      unfold plainStep
                      rw [if_neg hc, if_neg h0, if_neg hown, if_neg hlt, if_pos heq, hbp]
                      dsimp only
                      rw [if_neg hcc, if_pos hcceq, if_neg hid2]
                    rw [hstep]
                    right
                    constructor
                    · intro hbn
                      simp only at hbn
                      rw [hbn] at hbp
                      cases hbp
                    · intro b hb
                      simp only at hb
                      rw [hbp] at hb
                      simp only [Option.some.injEq] at hb
                      subst hb
                      refine ⟨List.mem_append_left _ hb1, hb2, hb3, hb4, ?_⟩
                      intro m hm hcand hmid
                      rcases hmemP m hm with h | h
                      · exact hb5 m h hcand hmid
                      · subst h
                        right; right
                        exact ⟨hdeq.symm, hcceq, by omega⟩
                · -- fewer children: the old best parent still precedes everyone
                  have hngt : n.pv.children_count < b0.pv.children_count := by omega
                  have hstep : plainStep own a n = a := by
                    unfold plainStep
                    rw [if_neg hc, if_neg h0, if_neg hown, if_neg hlt, if_pos heq, hbp]
                    dsimp only
                    rw [if_neg hcc, if_neg hcceq]
                  rw [hstep]
                  right
                  constructor
                  · intro hbn
                    rw [hbn] at hbp
                    cases hbp
                  · intro b hb
                    rw [hbp] at hb
                    simp only [Option.some.injEq] at hb
                    subst hb
                    refine ⟨List.mem_append_left _ hb1, hb2, hb3, hb4, ?_⟩
                    intro m hm hcand hmid
                    rcases hmemP m hm with h | h
                    · exact hb5 m h hcand hmid
                    · subst h
                      right; left
                      exact ⟨hdeq.symm, hngt⟩
          · -- farther away: ignored
            have hgt : a.distance_to_root < n.pv.distance_to_root + 1 := by omega
            have hstep : plainStep own a n = a := by
              unfold plainStep
              rw [if_neg hc, if_neg h0, if_neg hown, if_neg hlt, if_neg heq]
            rw [hstep]
            right
            constructor
            · intro hbn
              refine ⟨(hnone hbn).1, ?_⟩
              intro m hm hcand
              rcases hmemP m hm with h | h
              · exact (hnone hbn).2 m h hcand
              · have hd255 := (hnone hbn).1
                subst h
                omega
            · intro b hb
              obtain ⟨h1, h2, h3, h4, h5⟩ := hsome b hb
              refine ⟨List.mem_append_left _ h1, h2, h3, h4, ?_⟩
              intro m hm hcand hmid
              rcases hmemP m hm with h | h
              · exact h5 m h hcand hmid
              · subst h
                left
                omega


theorem plainFold_inv (own : Nat) : ∀ (l processed : List Nbr) (a : Acc),
    (∀ m ∈ processed ++ l, m.pv.distance_to_root ≤ 0xff) →
    (processed ++ l).Pairwise (fun x y => x.id ≠ y.id) →
    Inv own processed a →
    Inv own (processed ++ l) (List.foldl (plainStep own) a l)
  | [], processed, a, _, _, h => by simpa using h
  | n :: t, processed, a, hb, hpw, h => by
    have hassoc : processed ++ n :: t = (processed ++ [n]) ++ t := by simp
    have hb_n : n.pv.distance_to_root ≤ 0xff := hb n (by simp)
    have hpw_split := List.pairwise_append.mp hpw
    have hids : ∀ m ∈ processed, m.id ≠ n.id := by
      intro m hm
      exact hpw_split.2.2 m hm n (by simp)
    have hstep := plainStep_inv own a n processed hb_n hids hpw_split.1 h
    have hrec := plainFold_inv own t (processed ++ [n]) (plainStep own a n)
      (by rw [← hassoc]; exact hb)
      (by rw [← hassoc]; exact hpw)
      hstep
    rw [hassoc]
    simpa [List.foldl] using hrec

end MlstPlain

/-- C5.  Parent-selection order of the plain recompute: whenever
`mlst_recalculate` commits a best parent `b`, then `b` is a neighbor that
was not counted as a child, its published `distance_to_root` is known
(not the 0xff sentinel), and `b` strictly precedes — in the lexicographic
order on (distance_to_root + 1, −children_count, id): strictly smaller
distance first, then larger children count, then lower id — every other
neighbor that is not counted as a child and has known distance.  The
hypotheses state that the PVN snapshot is well formed: distances fit in
their `uint8_t` field and there is at most one entry per id. -/
theorem mlst_plain_commit_minimizes (own : Nat) (coin : Bool) (l : List MlstPlain.Nbr)
    (pv : MlstPlain.PV) (b : MlstPlain.Nbr)
    (hwf : MlstPlain.WfView l)
    (hres : MlstPlain.mlst_recalculate own coin l = MlstPlain.Result.committed pv b) :
    b ∈ l ∧ MlstPlain.isCand own b ∧ b.pv.distance_to_root ≠ 0xff
    ∧ ∀ m ∈ l, MlstPlain.isCand own m → m.pv.distance_to_root ≠ 0xff → m.id ≠ b.id →
        MlstPlain.betterParent b m := by
  have hinit : MlstPlain.Inv own [] MlstPlain.accInit := by
    right
    constructor
    · intro _
      exact ⟨rfl, by simp⟩
    · intro b0 hb0
      cases hb0
  have hfold := MlstPlain.plainFold_inv own l [] MlstPlain.accInit
    (by simpa using hwf.1) (by simpa using hwf.2) hinit
  simp only [List.nil_append] at hfold
  unfold MlstPlain.mlst_recalculate MlstPlain.plainFold at hres
  set af := List.foldl (MlstPlain.plainStep own) MlstPlain.accInit l with haf
  by_cases hc : af.crash = true
  · rw [if_pos hc] at hres
    cases hres
  · rw [if_neg hc] at hres
    rcases hfold with hcr | ⟨hnone, hsome⟩
    · exact absurd hcr hc
    cases hbp : af.best_parent with
    | none =>
      rw [hbp] at hres
      cases hres
    | some b0 =>
      rw [hbp] at hres
      dsimp only at hres
      by_cases hdefer : 1 < af.number_of_potential_parents ∧ coin = true
      · rw [if_pos hdefer] at hres
        cases hres
      · rw [if_neg hdefer] at hres
        have hb0b : b0 = b := by
          injection hres with h1 h2
        obtain ⟨h1, h2, h3, h4, h5⟩ := hsome b0 hbp
        subst hb0b
        refine ⟨h1, h2, by omega, ?_⟩
        intro m hm hcand _ hmid
        exact h5 m hm hcand hmid

/-- Witness for C5: own id 1, two candidate neighbors at equal distance,
id 3 with the larger children count wins. -/
theorem mlst_plain_commit_minimizes_witness :
    MlstPlain.WfView [⟨2, ⟨1, 7, 0⟩⟩, ⟨3, ⟨1, 7, 2⟩⟩]
    ∧ MlstPlain.mlst_recalculate 1 false [⟨2, ⟨1, 7, 0⟩⟩, ⟨3, ⟨1, 7, 2⟩⟩]
      = MlstPlain.Result.committed ⟨2, 3, 0⟩ ⟨3, ⟨1, 7, 2⟩⟩
    ∧ ((⟨3, ⟨1, 7, 2⟩⟩ : MlstPlain.Nbr) ∈ [(⟨2, ⟨1, 7, 0⟩⟩ : MlstPlain.Nbr), ⟨3, ⟨1, 7, 2⟩⟩]
       ∧ MlstPlain.isCand 1 ⟨3, ⟨1, 7, 2⟩⟩
       ∧ (⟨3, ⟨1, 7, 2⟩⟩ : MlstPlain.Nbr).pv.distance_to_root ≠ 0xff
       ∧ ∀ m ∈ [(⟨2, ⟨1, 7, 0⟩⟩ : MlstPlain.Nbr), ⟨3, ⟨1, 7, 2⟩⟩],
           MlstPlain.isCand 1 m → m.pv.distance_to_root ≠ 0xff →
           m.id ≠ (⟨3, ⟨1, 7, 2⟩⟩ : MlstPlain.Nbr).id →
           MlstPlain.betterParent ⟨3, ⟨1, 7, 2⟩⟩ m) :=
  ⟨by decide, by decide,
   mlst_plain_commit_minimizes 1 false [⟨2, ⟨1, 7, 0⟩⟩, ⟨3, ⟨1, 7, 2⟩⟩] ⟨2, 3, 0⟩
     ⟨3, ⟨1, 7, 2⟩⟩ (by decide) (by decide)⟩

